import Mathlib

/-!
# A verification development for the csim cache simulator

This file gives a shallow embedding of the cache state machine of
`src/csim.c` (a set-associative write-back cache simulator with LRU
replacement) and proves properties of it.

Modelling conventions:
* C `int`/`long` counters and timestamps are modelled as `Nat`
  (`dirtyInCache`, which is also decremented, as `Int`); the values
  reached in the properties below stay far below any overflow, except
  where a property hinges on machine-width behaviour, in which case the
  width is modelled explicitly.
* The C functions `find_matched_line` and `find_empty_line` return `-1`
  for "not found"; the embedding returns `Option Nat`, with `none`
  standing for `-1`.  `find_LRU` keeps the C return type (`Int`),
  because its `-1` case is load-bearing.
* An execution step that makes the C program touch memory out of bounds
  (undefined behaviour) is modelled as `none` / `RunResult.undefined`.
-/

namespace Csim

/-- One cache line, as in `struct line` of csim.c:
`int valid; long tag; int dirty; int timeStamp;`.
`valid`/`dirty` only ever hold 0/1 in the C code, so they are `Bool`s;
`tag` is the unsigned value of the C `long` (the C cast from
`unsigned long` is a bijection modulo 2^64, so tag equality tests agree). -/
structure Line where
  valid : Bool
  tag : Nat
  dirty : Bool
  timeStamp : Nat
deriving DecidableEq, Repr

instance : Inhabited Line := ⟨⟨false, 0, false, 0⟩⟩

/-- The global mutable state of csim.c: the `cache` array of `S` sets of
`E` lines each, and the counters
`hit, miss, eviction, dirtyInCache, dirtyEvicted, time`.
`dirtyInCache` is the one counter the C code also decrements, so it is
modelled as `Int`. -/
structure CacheState where
  cache : List (List Line)
  hit : Nat
  miss : Nat
  eviction : Nat
  dirtyInCache : Int
  dirtyEvicted : Nat
  time : Nat
deriving DecidableEq, Repr

/-- The configuration `(s, b, E)` read from the command line
(after `checkValidInput`, all three are nonnegative). -/
structure Config where
  s : Nat
  b : Nat
  E : Nat
deriving DecidableEq, Repr

/-- `const long MAX_SIZE = 16;` -/
def MAX_SIZE : Int := 16

/-- `init_cache`: every line starts `valid=0, tag=0, dirty=0, timeStamp=0`,
all counters zero; there are `S = 1 << s` sets of `E` lines
(the int shift `1 << s` is defined for the values used here). -/
def init_cache (cfg : Config) : CacheState :=
  { cache := List.replicate (2 ^ cfg.s) (List.replicate cfg.E default)
    hit := 0, miss := 0, eviction := 0
    dirtyInCache := 0, dirtyEvicted := 0, time := 0 }

/-- `find_matched_line`: first index `i` with
`cache[setIndex][i].valid == 1 && cache[setIndex][i].tag == tag`;
`none` models the C return value `-1`. -/
def find_matched_line (tag : Nat) : List Line → Option Nat
  | [] => none
  | l :: ls =>
    if l.valid = true ∧ l.tag = tag then some 0
    else (find_matched_line tag ls).map (· + 1)

/-- `find_empty_line`: first index `i` with `cache[setIndex][i].valid == 0`;
`none` models the C return value `-1`. -/
def find_empty_line : List Line → Option Nat
  | [] => none
  | l :: ls =>
    if l.valid = false then some 0
    else (find_empty_line ls).map (· + 1)

/-- The loop of `find_LRU`: running over the lines with the accumulator
`(minTime, minIndex)` initialised to `(9999999, -1)`, replace the
accumulator whenever `timeStamp < minTime` (strict, so ties keep the
lowest index). `i` is the index of the head of `ls` in the whole set. -/
def find_LRU_go : List Line → Nat → Nat → Int → Int
  | [], _, _, minIndex => minIndex
  | l :: ls, i, minTime, minIndex =>
    if l.timeStamp < minTime then find_LRU_go ls (i + 1) l.timeStamp (Int.ofNat i)
    else find_LRU_go ls (i + 1) minTime minIndex

/-- `find_LRU`: `int minTime = 9999999, minIndex = -1;` then a scan over
all `E` lines keeping the strict minimum `timeStamp`.  Note the result is
`-1` when every line's `timeStamp` is at least `9999999`. -/
def find_LRU (set : List Line) : Int :=
  find_LRU_go set 0 9999999 (-1)

/-- `set_cache`: overwrite line `lineIndex` with
`valid=1, tag=tag, dirty=0, timeStamp=time`. -/
def set_cache (set : List Line) (tag : Nat) (time : Nat) (lineIndex : Nat) :
    List Line :=
  set.set lineIndex { valid := true, tag := tag, dirty := false, timeStamp := time }

/-- `load_cache`: `time++`, then hit / fill-empty / evict-LRU.
`none` models the undefined behaviour when `find_LRU` returns `-1` and
the C code accesses `cache[setIndex][-1]` (likewise when `setIndex` is
out of range and the C code reads past the `cache` array). -/
def load_cache (st : CacheState) (tag : Nat) (setIndex : Nat) : Option CacheState :=
  let time := st.time + 1
  let set := st.cache.getD setIndex []
  match find_matched_line tag set with
  | some lineIndex =>
    -- hit: update the matched line's timestamp only
    let line := set.getD lineIndex default
    some { st with
            time := time,
            hit := st.hit + 1,
            cache := st.cache.set setIndex
              (set.set lineIndex { line with timeStamp := time }) }
  | none =>
    match find_empty_line set with
    | some newLineIndex =>
      -- miss into a free line
      some { st with
              time := time,
              miss := st.miss + 1,
              cache := st.cache.set setIndex (set_cache set tag time newLineIndex) }
    | none =>
      match find_LRU set with
      | Int.negSucc _ => none  -- C indexes cache[setIndex][-1]: out of bounds
      | Int.ofNat newLineIndex =>
        -- miss with eviction
        let victim := set.getD newLineIndex default
        let st1 :=
          if victim.dirty then
            { st with
               dirtyEvicted := st.dirtyEvicted + 1,
               dirtyInCache := st.dirtyInCache - 1 }
          else st
        some { st1 with
                time := time,
                miss := st.miss + 1,
                eviction := st.eviction + 1,
                cache := st.cache.set setIndex (set_cache set tag time newLineIndex) }

/-- `store_cache`: `time++`, then hit / fill-empty / evict-LRU, with the
dirty-bit bookkeeping of csim.c lines 174-208.  As in `load_cache`,
`none` models the out-of-bounds access on `find_LRU = -1`. -/
def store_cache (st : CacheState) (tag : Nat) (setIndex : Nat) : Option CacheState :=
  let time := st.time + 1
  let set := st.cache.getD setIndex []
  match find_matched_line tag set with
  | some lineIndex =>
    -- hit: update timestamp; if the line was clean, dirtyInCache++ and dirty=1
    let line := set.getD lineIndex default
    some { st with
            time := time,
            hit := st.hit + 1,
            dirtyInCache :=
              if line.dirty then st.dirtyInCache else st.dirtyInCache + 1,
            cache := st.cache.set setIndex
              (set.set lineIndex { line with timeStamp := time, dirty := true }) }
  | none =>
    -- miss: choose a line (free, or the LRU victim with eviction bookkeeping)
    let chosenIndex : Option (CacheState × Nat) :=
      match find_empty_line set with
      | some newLineIndex => some (st, newLineIndex)
      | none =>
        match find_LRU set with
        | Int.negSucc _ => none  -- C indexes cache[setIndex][-1]: out of bounds
        | Int.ofNat newLineIndex =>
          let victim := set.getD newLineIndex default
          some ({ st with
                   dirtyEvicted :=
                     if victim.dirty then st.dirtyEvicted + 1 else st.dirtyEvicted,
                   eviction := st.eviction + 1 }, newLineIndex)
    match chosenIndex with
    | none => none
    | some (st1, newLineIndex) =>
      -- if the chosen slot is not currently dirty, the incoming write
      -- will make it dirty: dirtyInCache++
      let chosen := set.getD newLineIndex default
      let st2 :=
        if chosen.dirty then st1
        else { st1 with dirtyInCache := st1.dirtyInCache + 1 }
      let set2 := set_cache set tag time newLineIndex
      let set3 := set2.set newLineIndex { set2.getD newLineIndex default with dirty := true }
      some { st2 with
              time := time,
              miss := st.miss + 1,
              cache := st.cache.set setIndex set3 }

/-- The address decomposition of `process_trace_file`:
`long tag = (long)(addr >> (unsigned int)(s + b));`
`int setIndex = (int)((addr & ((1 << (unsigned int)(s + b)) - 1)) >> (unsigned int)b);`
The mask is built from the 32-bit `int` literal `1`, so the shift
`1 << (s + b)` is defined only for `s + b ≤ 30` (for `s + b = 31` the
result overflows `int`, and for `s + b ≥ 32` the shift count reaches the
width of `int`); `none` models that undefined behaviour. -/
def decode (s b : Nat) (addr : Nat) : Option (Nat × Nat) :=
  if s + b ≤ 30 then
    some (addr >>> (s + b), (addr &&& (2 ^ (s + b) - 1)) >>> b)
  else none

/-- One trace record `(action, addr, size)` as scanned by
`fscanf(tfp, " %c %lx,%d", ...)`. -/
structure Record where
  action : Char
  addr : Nat
  size : Int
deriving DecidableEq, Repr

/-- Result of processing: `ok` continues with the new state, `fatal msg`
models `printf(msg); exit(1)` (no statistics are printed), `undefined`
models C undefined behaviour. -/
inductive RunResult where
  | ok (st : CacheState)
  | fatal (msg : String)
  | undefined
deriving DecidableEq, Repr

/-- The body of the `while (fscanf ...)` loop of `process_trace_file` for
one record.  (The C check `if (addr < 0)` can never fire: `addr` has
unsigned type.) -/
def processRecord (cfg : Config) (st : CacheState) (r : Record) : RunResult :=
  if r.size < 0 ∨ MAX_SIZE ≤ r.size then .fatal "Size is out of range"
  else
    match decode cfg.s cfg.b r.addr with
    | none => .undefined
    | some (tag, setIndex) =>
      if r.action = 'L' then
        match load_cache st tag setIndex with
        | some st' => .ok st'
        | none => .undefined
      else if r.action = 'S' then
        match store_cache st tag setIndex with
        | some st' => .ok st'
        | none => .undefined
      else .fatal "Invalid action"

/-- `process_trace_file`: fold `processRecord` over the trace; a fatal
record stops the run with no statistics. -/
def processTrace (cfg : Config) (st : CacheState) : List Record → RunResult
  | [] => .ok st
  | r :: rs =>
    match processRecord cfg st r with
    | .ok st' => processTrace cfg st' rs
    | .fatal msg => .fatal msg
    | .undefined => .undefined

/-- The statistics record filled in `main` (lines 318-324):
`dirty_bytes = dirtyInCache * B` and `dirty_evictions = dirtyEvicted * B`
with `B = 1 << b` from `init_cache`. -/
structure CsimStats where
  hits : Nat
  misses : Nat
  evictions : Nat
  dirty_bytes : Int
  dirty_evictions : Int
deriving DecidableEq, Repr

/-- `B = 1 << b` (set in `init_cache`). -/
def blockSize (cfg : Config) : Nat := 1 <<< cfg.b

/-- Representability in C's 32-bit signed `int`: a signed-arithmetic
result outside this range is undefined behaviour. -/
def intRepresentable (v : Int) : Prop := -(2 ^ 31) ≤ v ∧ v < 2 ^ 31

instance : DecidablePred intRepresentable := fun v =>
  decidable_of_iff (-(2 ^ 31) ≤ v ∧ v < 2 ^ 31) Iff.rfl

/-- The final statistics snapshot built in `main` (lines 318-324):
`dirty_bytes = (unsigned long)(dirtyInCache * B)` and
`dirty_evictions = (unsigned long)(dirtyEvicted * B)`.
Both `dirtyInCache`/`dirtyEvicted` and the global `B = 1 << b` are
32-bit `int`s: the shift building `B` is defined only for `b ≤ 30`
(for `b = 31` the result overflows `int`, for `b ≥ 32` the shift count
reaches the width of `int`), and each product is undefined when it does
not fit in `int` (signed overflow); both kinds of undefined behaviour
are modelled as `none`. -/
def mkStats (cfg : Config) (st : CacheState) : Option CsimStats :=
  if cfg.b ≤ 30 then
    if intRepresentable (st.dirtyInCache * (blockSize cfg : Int)) ∧
        intRepresentable ((st.dirtyEvicted : Int) * (blockSize cfg : Int)) then
      some { hits := st.hit
             misses := st.miss
             evictions := st.eviction
             dirty_bytes := st.dirtyInCache * (blockSize cfg : Int)
             dirty_evictions := (st.dirtyEvicted : Int) * (blockSize cfg : Int) }
    else none
  else none

/-- A line that counts toward `dirtyInCache`: simultaneously valid and dirty. -/
def isValidDirty (l : Line) : Bool := l.valid && l.dirty

/-- Number of simultaneously valid and dirty lines, summed over all sets
(the full-scan count that `dirtyInCache` is claimed to track). -/
def countValidDirty : List (List Line) → Nat
  | [] => 0
  | s :: rest => s.countP isValidDirty + countValidDirty rest

/-- The reachable-state invariant of the simulator:
`dirtyInCache` equals the full-scan count of valid-and-dirty lines,
invalid lines are never dirty, the clock counts the processed operations
(`hit + miss`), every valid line's recency lies in `[1, time]`, and no
recency value is held by two valid lines of one set. -/
def Inv (st : CacheState) : Prop :=
  st.dirtyInCache = (countValidDirty st.cache : Int) ∧
  (∀ s ∈ st.cache, ∀ l ∈ s, l.valid = false → l.dirty = false) ∧
  st.time = st.hit + st.miss ∧
  (∀ s ∈ st.cache, ∀ l ∈ s, l.valid = true →
    1 ≤ l.timeStamp ∧ l.timeStamp ≤ st.time) ∧
  (∀ s ∈ st.cache, ∀ t : Nat,
    (s.countP fun l => l.valid && l.timeStamp == t) ≤ 1)

/-- Configuration (s=0, b=0, E=1) driving the whole address into the tag:
one set, one line, block size 1. -/
def c2Config : Config := ⟨0, 0, 1⟩

/-- `n` loads of the pairwise distinct addresses 0, 1, ..., n-1
(each with size 1); with `c2Config` every one of them misses. -/
def c2Trace (n : Nat) : List Record :=
  (List.range n).map fun k => ⟨'L', k, 1⟩

/-- The state after processing `c2Trace n` (for `1 ≤ n ≤ 9999999`):
the single line holds tag `n-1` with recency `n`. -/
def c2State (n : Nat) : CacheState :=
  { cache := [[⟨true, n - 1, false, n⟩]], hit := 0, miss := n,
    eviction := n - 1, dirtyInCache := 0, dirtyEvicted := 0, time := n }

end Csim

namespace Csim

/-! ## List helpers -/

theorem length_pos_of_getD_set {α : Type} {l : List α} {i : Nat}
    (h : i < l.length) : l ≠ [] := by
  cases l <;> simp_all

theorem getD_set_self {α : Type} [Inhabited α] {l : List α} {i : Nat}
    (h : i < l.length) (v : α) : (l.set i v).getD i default = v := by
  induction l generalizing i with
  | nil => simp at h
  | cons a as ih =>
    cases i with
    | zero => simp [List.set]
    | succ n => simpa [List.set] using ih (by simpa using h) 

theorem getD_set_ne {α : Type} [Inhabited α] {l : List α} {i j : Nat}
    (h : j ≠ i) (v : α) : (l.set i v).getD j default = l.getD j default := by
  induction l generalizing i j with
  | nil => simp [List.set]
  | cons a as ih =>
    cases i with
    | zero =>
      cases j with
      | zero => exact absurd rfl h
      | succ m => simp [List.set]
    | succ n =>
      cases j with
      | zero => simp [List.set]
      | succ m =>
        have h' : m ≠ n := fun hc => h (by omega)
        simpa [List.set] using ih h'

theorem mem_of_mem_set {α : Type} {l : List α} {i : Nat} {v x : α}
    (h : x ∈ l.set i v) : x = v ∨ x ∈ l := by
  induction l generalizing i with
  | nil => simp [List.set] at h
  | cons a as ih =>
    cases i with
    | zero =>
      rcases List.mem_cons.mp h with h | h
      · exact Or.inl h
      · exact Or.inr (List.mem_cons_of_mem _ h)
    | succ n =>
      rcases List.mem_cons.mp h with h | h
      · exact Or.inr (h ▸ List.mem_cons_self _ _)
      · rcases ih h with h | h
        · exact Or.inl h
        · exact Or.inr (List.mem_cons_of_mem _ h)

theorem countP_set {α : Type} [Inhabited α] {l : List α} {i : Nat}
    (h : i < l.length) (v : α) (p : α → Bool) :
    (l.set i v).countP p + (if p (l.getD i default) then 1 else 0) =
      l.countP p + (if p v then 1 else 0) := by
  induction l generalizing i with
  | nil => simp at h
  | cons a as ih =>
    cases i with
    | zero =>
      simp only [List.set, List.countP_cons, List.getD_cons_zero]
      by_cases hv : p v <;> by_cases ha : p a <;> simp [hv, ha]
    | succ n =>
      have key := ih (i := n) (by simpa using h)
      simp only [List.set, List.countP_cons, List.getD_cons_succ]
      by_cases ha : p a <;> simp only [ha, if_true, if_false] <;> omega

end Csim

namespace Csim

/-! ## Properties of the three scan functions -/

theorem find_matched_line_some {tag : Nat} {s : List Line} {i : Nat}
    (h : find_matched_line tag s = some i) :
    i < s.length ∧ (s.getD i default).valid = true ∧
      (s.getD i default).tag = tag := by
  induction s generalizing i with
  | nil => simp [find_matched_line] at h
  | cons l ls ih =>
    by_cases hc : l.valid = true ∧ l.tag = tag
    · simp only [find_matched_line, if_pos hc] at h
      obtain rfl : i = 0 := by simpa using h.symm
      simpa using hc
    · simp only [find_matched_line, if_neg hc] at h
      rcases Option.map_eq_some'.mp h with ⟨m, hm, rfl⟩
      rcases ih hm with ⟨h1, h2, h3⟩
      exact ⟨by simpa using h1, by simpa using h2, by simpa using h3⟩

theorem find_matched_line_none {tag : Nat} {s : List Line}
    (h : find_matched_line tag s = none) :
    ∀ l ∈ s, l.valid = true → l.tag ≠ tag := by
  induction s with
  | nil => simp
  | cons l ls ih =>
    by_cases hc : l.valid = true ∧ l.tag = tag
    · simp [find_matched_line, if_pos hc] at h
    · simp only [find_matched_line, if_neg hc] at h
      intro x hx hv
      rcases List.mem_cons.mp hx with rfl | hx
      · intro ht; exact hc ⟨hv, ht⟩
      · exact ih (by simpa using h) x hx hv

theorem find_empty_line_some {s : List Line} {i : Nat}
    (h : find_empty_line s = some i) :
    i < s.length ∧ (s.getD i default).valid = false ∧
      ∀ j, j < i → (s.getD j default).valid = true := by
  induction s generalizing i with
  | nil => simp [find_empty_line] at h
  | cons l ls ih =>
    by_cases hc : l.valid = false
    · simp only [find_empty_line, if_pos hc] at h
      obtain rfl : i = 0 := by simpa using h.symm
      exact ⟨by simp, by simpa using hc, fun j hj => by omega⟩
    · simp only [find_empty_line, if_neg hc] at h
      rcases Option.map_eq_some'.mp h with ⟨m, hm, rfl⟩
      rcases ih hm with ⟨h1, h2, h3⟩
      refine ⟨by simpa using h1, by simpa using h2, ?_⟩
      intro j hj
      cases j with
      | zero => simpa using (Bool.not_eq_false _).mp hc
      | succ k => simpa using h3 k (by omega)

theorem find_empty_line_none {s : List Line}
    (h : find_empty_line s = none) : ∀ l ∈ s, l.valid = true := by
  induction s with
  | nil => simp
  | cons l ls ih =>
    by_cases hc : l.valid = false
    · simp [find_empty_line, if_pos hc] at h
    · simp only [find_empty_line, if_neg hc] at h
      intro x hx
      rcases List.mem_cons.mp hx with rfl | hx
      · exact (Bool.not_eq_false _).mp hc
      · exact ih (by simpa using h) x hx

theorem find_LRU_go_cases (ls : List Line) (i : Nat) (mt : Nat) (mi : Int) :
    find_LRU_go ls i mt mi = mi ∨
      ∃ k, k < ls.length ∧ find_LRU_go ls i mt mi = Int.ofNat (i + k) := by
  induction ls generalizing i mt mi with
  | nil => exact Or.inl rfl
  | cons l ls ih =>
    by_cases hc : l.timeStamp < mt
    · simp only [find_LRU_go, if_pos hc]
      rcases ih (i + 1) l.timeStamp (Int.ofNat i) with h | ⟨k, hk, h⟩
      · exact Or.inr ⟨0, by simp, by simpa using h⟩
      · exact Or.inr ⟨k + 1, by simpa using Nat.succ_lt_succ hk, by rw [h]; congr 1; omega⟩
    · simp only [find_LRU_go, if_neg hc]
      rcases ih (i + 1) mt mi with h | ⟨k, hk, h⟩
      · exact Or.inl h
      · exact Or.inr ⟨k + 1, by simpa using Nat.succ_lt_succ hk, by rw [h]; congr 1; omega⟩

theorem find_LRU_lt_length {s : List Line} {n : Nat}
    (h : find_LRU s = Int.ofNat n) : n < s.length := by
  rw [find_LRU] at h
  rcases find_LRU_go_cases s 0 9999999 (-1) with hc | ⟨k, hk, hc⟩
  · rw [hc] at h; simp at h
  · rw [hc] at h
    have hkn := Int.ofNat.inj h
    omega

end Csim

namespace Csim

/-! ## Path equations for `load_cache` and `store_cache` -/

theorem load_cache_hit {st : CacheState} {tag setIndex i : Nat}
    (h : find_matched_line tag (st.cache.getD setIndex []) = some i) :
    load_cache st tag setIndex = some { st with
      time := st.time + 1,
      hit := st.hit + 1,
      cache := st.cache.set setIndex ((st.cache.getD setIndex []).set i
        { (st.cache.getD setIndex []).getD i default with timeStamp := st.time + 1 }) } := by
  simp only [load_cache, h]

theorem load_cache_fill {st : CacheState} {tag setIndex n : Nat}
    (hm : find_matched_line tag (st.cache.getD setIndex []) = none)
    (he : find_empty_line (st.cache.getD setIndex []) = some n) :
    load_cache st tag setIndex = some { st with
      time := st.time + 1,
      miss := st.miss + 1,
      cache := st.cache.set setIndex ((st.cache.getD setIndex []).set n
        ⟨true, tag, false, st.time + 1⟩) } := by
  simp only [load_cache, hm, he, set_cache]

theorem load_cache_evict_clean {st : CacheState} {tag setIndex n : Nat}
    (hm : find_matched_line tag (st.cache.getD setIndex []) = none)
    (he : find_empty_line (st.cache.getD setIndex []) = none)
    (hl : find_LRU (st.cache.getD setIndex []) = Int.ofNat n)
    (hd : ((st.cache.getD setIndex []).getD n default).dirty = false) :
    load_cache st tag setIndex = some { st with
      time := st.time + 1,
      miss := st.miss + 1,
      eviction := st.eviction + 1,
      cache := st.cache.set setIndex ((st.cache.getD setIndex []).set n
        ⟨true, tag, false, st.time + 1⟩) } := by
  simp only [load_cache, hm, he, hl, hd, set_cache, Bool.false_eq_true, if_false]

theorem load_cache_evict_dirty {st : CacheState} {tag setIndex n : Nat}
    (hm : find_matched_line tag (st.cache.getD setIndex []) = none)
    (he : find_empty_line (st.cache.getD setIndex []) = none)
    (hl : find_LRU (st.cache.getD setIndex []) = Int.ofNat n)
    (hd : ((st.cache.getD setIndex []).getD n default).dirty = true) :
    load_cache st tag setIndex = some { st with
      time := st.time + 1,
      miss := st.miss + 1,
      eviction := st.eviction + 1,
      dirtyEvicted := st.dirtyEvicted + 1,
      dirtyInCache := st.dirtyInCache - 1,
      cache := st.cache.set setIndex ((st.cache.getD setIndex []).set n
        ⟨true, tag, false, st.time + 1⟩) } := by
  simp only [load_cache, hm, he, hl, hd, set_cache, if_true]

end Csim

namespace Csim

theorem store_cache_hit_clean {st : CacheState} {tag setIndex i : Nat}
    (h : find_matched_line tag (st.cache.getD setIndex []) = some i)
    (hd : ((st.cache.getD setIndex []).getD i default).dirty = false) :
    store_cache st tag setIndex = some { st with
      time := st.time + 1,
      hit := st.hit + 1,
      dirtyInCache := st.dirtyInCache + 1,
      cache := st.cache.set setIndex ((st.cache.getD setIndex []).set i
        { (st.cache.getD setIndex []).getD i default with
            timeStamp := st.time + 1, dirty := true }) } := by
  simp only [store_cache, h, hd, Bool.false_eq_true, if_false]

theorem store_cache_hit_dirty {st : CacheState} {tag setIndex i : Nat}
    (h : find_matched_line tag (st.cache.getD setIndex []) = some i)
    (hd : ((st.cache.getD setIndex []).getD i default).dirty = true) :
    store_cache st tag setIndex = some { st with
      time := st.time + 1,
      hit := st.hit + 1,
      cache := st.cache.set setIndex ((st.cache.getD setIndex []).set i
        { (st.cache.getD setIndex []).getD i default with
            timeStamp := st.time + 1, dirty := true }) } := by
  simp only [store_cache, h, hd, if_true]

theorem store_cache_fill {st : CacheState} {tag setIndex n : Nat}
    (hm : find_matched_line tag (st.cache.getD setIndex []) = none)
    (he : find_empty_line (st.cache.getD setIndex []) = some n)
    (hd : ((st.cache.getD setIndex []).getD n default).dirty = false) :
    store_cache st tag setIndex = some { st with
      time := st.time + 1,
      miss := st.miss + 1,
      dirtyInCache := st.dirtyInCache + 1,
      cache := st.cache.set setIndex ((st.cache.getD setIndex []).set n
        ⟨true, tag, true, st.time + 1⟩) } := by
  have hn : n < (st.cache.getD setIndex []).length := (find_empty_line_some he).1
  simp only [store_cache, hm, he, hd, set_cache, Bool.false_eq_true, if_false,
    getD_set_self hn, List.set_set]

theorem store_cache_evict_clean {st : CacheState} {tag setIndex n : Nat}
    (hm : find_matched_line tag (st.cache.getD setIndex []) = none)
    (he : find_empty_line (st.cache.getD setIndex []) = none)
    (hl : find_LRU (st.cache.getD setIndex []) = Int.ofNat n)
    (hd : ((st.cache.getD setIndex []).getD n default).dirty = false) :
    store_cache st tag setIndex = some { st with
      time := st.time + 1,
      miss := st.miss + 1,
      eviction := st.eviction + 1,
      dirtyInCache := st.dirtyInCache + 1,
      cache := st.cache.set setIndex ((st.cache.getD setIndex []).set n
        ⟨true, tag, true, st.time + 1⟩) } := by
  have hn : n < (st.cache.getD setIndex []).length := find_LRU_lt_length hl
  simp only [store_cache, hm, he, hl, hd, set_cache, Bool.false_eq_true, if_false,
    getD_set_self hn, List.set_set]

theorem store_cache_evict_dirty {st : CacheState} {tag setIndex n : Nat}
    (hm : find_matched_line tag (st.cache.getD setIndex []) = none)
    (he : find_empty_line (st.cache.getD setIndex []) = none)
    (hl : find_LRU (st.cache.getD setIndex []) = Int.ofNat n)
    (hd : ((st.cache.getD setIndex []).getD n default).dirty = true) :
    store_cache st tag setIndex = some { st with
      time := st.time + 1,
      miss := st.miss + 1,
      eviction := st.eviction + 1,
      dirtyEvicted := st.dirtyEvicted + 1,
      cache := st.cache.set setIndex ((st.cache.getD setIndex []).set n
        ⟨true, tag, true, st.time + 1⟩) } := by
  have hn : n < (st.cache.getD setIndex []).length := find_LRU_lt_length hl
  simp only [store_cache, hm, he, hl, hd, if_true, set_cache,
    getD_set_self hn, List.set_set]

end Csim

namespace Csim

/-! ## The resident-dirty count and the reachable-state invariant -/

theorem getD_mem {α : Type} [Inhabited α] {l : List α} {n : Nat}
    (h : n < l.length) : l.getD n default ∈ l := by
  rw [List.getD_eq_getElem l default h]
  exact List.getElem_mem h

theorem lt_length_of_getD_length_pos {c : List (List Line)} {si : Nat}
    (h : 0 < (c.getD si []).length) : si < c.length := by
  by_contra hc
  rw [List.getD_eq_default c [] (by omega)] at h
  simp at h

theorem countValidDirty_set {c : List (List Line)} {k : Nat}
    (h : k < c.length) (v : List Line) :
    countValidDirty (c.set k v) + (c.getD k []).countP isValidDirty =
      countValidDirty c + v.countP isValidDirty := by
  induction c generalizing k with
  | nil => simp at h
  | cons s rest ih =>
    cases k with
    | zero => simp [List.set, countValidDirty]; omega
    | succ m =>
      have := ih (k := m) (by simpa using h)
      simp only [List.set, countValidDirty, List.getD_cons_succ]
      omega

theorem countValidDirty_replicate (m : Nat) (s : List Line)
    (hs : s.countP isValidDirty = 0) :
    countValidDirty (List.replicate m s) = 0 := by
  induction m with
  | zero => rfl
  | succ k ih => simp [List.replicate, countValidDirty, hs, ih]

theorem Inv_init (cfg : Config) : Inv (init_cache cfg) := by
  have hz : (List.replicate cfg.E (default : Line)).countP isValidDirty = 0 := by
    rw [List.countP_eq_zero]
    intro a ha
    rw [List.eq_of_mem_replicate ha]
    simp [isValidDirty, default]
  refine ⟨?_, ?_, rfl, ?_, ?_⟩
  · simp [init_cache, countValidDirty_replicate _ _ hz]
  · intro s hs l hl _
    rw [List.eq_of_mem_replicate hs] at hl
    rw [List.eq_of_mem_replicate hl]
    rfl
  · intro s hs l hl hv
    rw [List.eq_of_mem_replicate hs] at hl
    rw [List.eq_of_mem_replicate hl] at hv
    simp [default] at hv
  · intro s hs t
    rw [List.eq_of_mem_replicate hs]
    rw [List.countP_eq_zero.mpr]
    · omega
    · intro a ha
      rw [List.eq_of_mem_replicate ha]
      simp [default]

end Csim

namespace Csim

theorem getD_nil_eq_getD_default (c : List (List Line)) (i : Nat) :
    c.getD i [] = c.getD i default := rfl

/-- All eight update paths of `load_cache`/`store_cache` write one line of
one set, with `valid=1` and `timeStamp = time+1`; this lemma packages the
invariant preservation common to them. -/
theorem Inv_update {st : CacheState} {setIndex n : Nat} {newLine : Line}
    {hit' miss' ev' dE' : Nat} {dIC' : Int}
    (hInv : Inv st)
    (hsi : setIndex < st.cache.length)
    (hn : n < (st.cache.getD setIndex []).length)
    (hvalid : newLine.valid = true)
    (hstamp : newLine.timeStamp = st.time + 1)
    (hdic : dIC' +
      (if isValidDirty ((st.cache.getD setIndex []).getD n default) then (1 : Int) else 0) =
      st.dirtyInCache + (if isValidDirty newLine then (1 : Int) else 0))
    (hhm : st.time + 1 = hit' + miss') :
    Inv { cache := st.cache.set setIndex ((st.cache.getD setIndex []).set n newLine),
          hit := hit', miss := miss', eviction := ev',
          dirtyInCache := dIC', dirtyEvicted := dE', time := st.time + 1 } := by
  rcases hInv with ⟨h1, h2, h3, h4, h5⟩
  have smem : st.cache.getD setIndex [] ∈ st.cache := by
    rw [getD_nil_eq_getD_default]
    exact getD_mem hsi
  have cvd := countValidDirty_set hsi ((st.cache.getD setIndex []).set n newLine)
  have cp := countP_set hn newLine isValidDirty
  refine ⟨?_, ?_, hhm, ?_, ?_⟩
  · show dIC' = _
    rcases Bool.eq_false_or_eq_true
        (isValidDirty ((st.cache.getD setIndex []).getD n default)) with ho | ho <;>
      rcases Bool.eq_false_or_eq_true (isValidDirty newLine) with hw | hw <;>
      simp only [ho, hw, Bool.false_eq_true, if_true, if_false] at hdic cp ⊢ <;>
      omega
  · intro s2 hs2 l hl hv
    rcases mem_of_mem_set hs2 with rfl | hs2
    · rcases mem_of_mem_set hl with rfl | hl
      · rw [hvalid] at hv; cases hv
      · exact h2 _ smem l hl hv
    · exact h2 s2 hs2 l hl hv
  · intro s2 hs2 l hl hv
    rcases mem_of_mem_set hs2 with rfl | hs2
    · rcases mem_of_mem_set hl with rfl | hl
      · rw [hstamp]; dsimp only; omega
      · have := h4 _ smem l hl hv; dsimp only; omega
    · have := h4 s2 hs2 l hl hv; dsimp only; omega
  · intro s2 hs2 t
    rcases mem_of_mem_set hs2 with rfl | hs2
    · have cpt := countP_set hn newLine (fun l => l.valid && l.timeStamp == t)
      by_cases hteq : t = st.time + 1
      · subst hteq
        have hzero :
            ((st.cache.getD setIndex []).countP
              fun l => l.valid && l.timeStamp == st.time + 1) = 0 := by
          rw [List.countP_eq_zero]
          intro a ha hcontra
          rw [Bool.and_eq_true, beq_iff_eq] at hcontra
          have := h4 _ smem a ha hcontra.1
          omega
        have hnew : (newLine.valid && newLine.timeStamp == st.time + 1) = true := by
          rw [Bool.and_eq_true, beq_iff_eq]
          exact ⟨hvalid, hstamp⟩
        rw [hzero, hnew] at cpt
        simp only [if_true] at cpt
        rcases Bool.eq_false_or_eq_true
            (((st.cache.getD setIndex []).getD n default).valid &&
              ((st.cache.getD setIndex []).getD n default).timeStamp == st.time + 1)
          with ho | ho <;>
          simp only [ho, Bool.false_eq_true, if_true, if_false] at cpt <;> omega
      · have hnew : (newLine.valid && newLine.timeStamp == t) = false := by
          rw [Bool.and_eq_false_iff]
          right
          rw [beq_eq_false_iff_ne]
          omega
        have hold := h5 _ smem t
        rw [hnew] at cpt
        simp only [Bool.false_eq_true, if_false] at cpt
        rcases Bool.eq_false_or_eq_true
            (((st.cache.getD setIndex []).getD n default).valid &&
              ((st.cache.getD setIndex []).getD n default).timeStamp == t)
          with ho | ho <;>
          simp only [ho, Bool.false_eq_true, if_true, if_false] at cpt <;> omega
    · exact h5 s2 hs2 t

end Csim

namespace Csim

theorem store_cache_fill_dirty {st : CacheState} {tag setIndex n : Nat}
    (hm : find_matched_line tag (st.cache.getD setIndex []) = none)
    (he : find_empty_line (st.cache.getD setIndex []) = some n)
    (hd : ((st.cache.getD setIndex []).getD n default).dirty = true) :
    store_cache st tag setIndex = some { st with
      time := st.time + 1,
      miss := st.miss + 1,
      cache := st.cache.set setIndex ((st.cache.getD setIndex []).set n
        ⟨true, tag, true, st.time + 1⟩) } := by
  have hn : n < (st.cache.getD setIndex []).length := (find_empty_line_some he).1
  simp only [store_cache, hm, he, hd, if_true, set_cache,
    getD_set_self hn, List.set_set]

theorem load_cache_inv {st st' : CacheState} {tag setIndex : Nat}
    (hInv : Inv st) (h : load_cache st tag setIndex = some st') : Inv st' := by
  have h3 := hInv.2.2.1
  cases hm : find_matched_line tag (st.cache.getD setIndex []) with
  | some i =>
    rcases find_matched_line_some hm with ⟨hi, hv, _⟩
    have hsi : setIndex < st.cache.length :=
      lt_length_of_getD_length_pos (by omega)
    rw [load_cache_hit hm] at h
    obtain rfl := Option.some.inj h
    exact Inv_update hInv hsi hi hv rfl (by simp [isValidDirty]) (by omega)
  | none =>
    cases he : find_empty_line (st.cache.getD setIndex []) with
    | some n =>
      rcases find_empty_line_some he with ⟨hn, hov, _⟩
      have hsi : setIndex < st.cache.length :=
        lt_length_of_getD_length_pos (by omega)
      rw [load_cache_fill hm he] at h
      obtain rfl := Option.some.inj h
      refine Inv_update hInv hsi hn rfl rfl ?_ (by omega)
      have hvo : isValidDirty ((st.cache.getD setIndex []).getD n default) = false := by
        simp only [isValidDirty, hov, Bool.false_and]
      rw [hvo]
      simp [isValidDirty]
    | none =>
      cases hl : find_LRU (st.cache.getD setIndex []) with
      | negSucc k =>
        simp only [load_cache, hm, he, hl] at h
        exact Option.noConfusion h
      | ofNat n =>
        have hn : n < (st.cache.getD setIndex []).length := find_LRU_lt_length hl
        have hsi : setIndex < st.cache.length :=
          lt_length_of_getD_length_pos (by omega)
        have hov : ((st.cache.getD setIndex []).getD n default).valid = true :=
          find_empty_line_none he _ (getD_mem hn)
        rcases Bool.eq_false_or_eq_true
            ((st.cache.getD setIndex []).getD n default).dirty with hd | hd
        · rw [load_cache_evict_dirty hm he hl hd] at h
          obtain rfl := Option.some.inj h
          refine Inv_update hInv hsi hn rfl rfl ?_ (by omega)
          simp only [isValidDirty, hd, hov, Bool.and_self, Bool.and_false,
            Bool.true_and, if_true, Bool.false_eq_true, if_false]
          omega
        · rw [load_cache_evict_clean hm he hl hd] at h
          obtain rfl := Option.some.inj h
          refine Inv_update hInv hsi hn rfl rfl ?_ (by omega)
          have hvo : isValidDirty ((st.cache.getD setIndex []).getD n default) = false := by
            simp only [isValidDirty, hd, Bool.and_false]
          rw [hvo]
          simp [isValidDirty]

theorem store_cache_inv {st st' : CacheState} {tag setIndex : Nat}
    (hInv : Inv st) (h : store_cache st tag setIndex = some st') : Inv st' := by
  have h2 := hInv.2.1
  have h3 := hInv.2.2.1
  cases hm : find_matched_line tag (st.cache.getD setIndex []) with
  | some i =>
    rcases find_matched_line_some hm with ⟨hi, hv, _⟩
    have hsi : setIndex < st.cache.length :=
      lt_length_of_getD_length_pos (by omega)
    rcases Bool.eq_false_or_eq_true
        ((st.cache.getD setIndex []).getD i default).dirty with hd | hd
    · rw [store_cache_hit_dirty hm hd] at h
      obtain rfl := Option.some.inj h
      refine Inv_update hInv hsi hi hv rfl ?_ (by omega)
      simp only [isValidDirty, hd, hv, Bool.and_true, if_true]
    · rw [store_cache_hit_clean hm hd] at h
      obtain rfl := Option.some.inj h
      refine Inv_update hInv hsi hi hv rfl ?_ (by omega)
      simp only [isValidDirty, hd, hv, Bool.and_false, Bool.and_true,
        Bool.false_eq_true, if_false, if_true]
      omega
  | none =>
    cases he : find_empty_line (st.cache.getD setIndex []) with
    | some n =>
      rcases find_empty_line_some he with ⟨hn, hov, _⟩
      have hsi : setIndex < st.cache.length :=
        lt_length_of_getD_length_pos (by omega)
      have hod : ((st.cache.getD setIndex []).getD n default).dirty = false := by
        refine h2 (st.cache.getD setIndex []) ?_ _ (getD_mem hn) hov
        rw [getD_nil_eq_getD_default]
        exact getD_mem hsi
      rw [store_cache_fill hm he hod] at h
      obtain rfl := Option.some.inj h
      refine Inv_update hInv hsi hn rfl rfl ?_ (by omega)
      simp only [isValidDirty, hov, Bool.false_and, Bool.and_true,
        Bool.false_eq_true, if_false, if_true]
      omega
    | none =>
      cases hl : find_LRU (st.cache.getD setIndex []) with
      | negSucc k =>
        simp only [store_cache, hm, he, hl] at h
        exact Option.noConfusion h
      | ofNat n =>
        have hn : n < (st.cache.getD setIndex []).length := find_LRU_lt_length hl
        have hsi : setIndex < st.cache.length :=
          lt_length_of_getD_length_pos (by omega)
        have hov : ((st.cache.getD setIndex []).getD n default).valid = true :=
          find_empty_line_none he _ (getD_mem hn)
        rcases Bool.eq_false_or_eq_true
            ((st.cache.getD setIndex []).getD n default).dirty with hd | hd
        · rw [store_cache_evict_dirty hm he hl hd] at h
          obtain rfl := Option.some.inj h
          refine Inv_update hInv hsi hn rfl rfl ?_ (by omega)
          simp only [isValidDirty, hd, hov, Bool.and_self, Bool.and_true, if_true]
        · rw [store_cache_evict_clean hm he hl hd] at h
          obtain rfl := Option.some.inj h
          refine Inv_update hInv hsi hn rfl rfl ?_ (by omega)
          simp only [isValidDirty, hd, Bool.and_false, Bool.and_true,
            Bool.false_eq_true, if_false, if_true]
          omega

end Csim

namespace Csim

/-! ## From single records to whole traces -/

theorem processRecord_ok_cases {cfg : Config} {st st' : CacheState} {r : Record}
    (h : processRecord cfg st r = .ok st') :
    ∃ tag setIndex, decode cfg.s cfg.b r.addr = some (tag, setIndex) ∧
      ((r.action = 'L' ∧ load_cache st tag setIndex = some st') ∨
       (r.action = 'S' ∧ store_cache st tag setIndex = some st')) := by
  by_cases hsz : r.size < 0 ∨ MAX_SIZE ≤ r.size
  · simp only [processRecord, if_pos hsz] at h
    exact RunResult.noConfusion h
  · simp only [processRecord, if_neg hsz] at h
    cases hd : decode cfg.s cfg.b r.addr with
    | none =>
      simp only [hd] at h
      exact RunResult.noConfusion h
    | some p =>
      obtain ⟨tag, si⟩ := p
      simp only [hd] at h
      by_cases hL : r.action = 'L'
      · simp only [if_pos hL] at h
        cases hl : load_cache st tag si with
        | none =>
          simp only [hl] at h
          exact RunResult.noConfusion h
        | some st2 =>
          simp only [hl] at h
          obtain rfl : st2 = st' := by cases h; rfl
          exact ⟨tag, si, rfl, Or.inl ⟨hL, hl⟩⟩
      · simp only [if_neg hL] at h
        by_cases hS : r.action = 'S'
        · simp only [if_pos hS] at h
          cases hs : store_cache st tag si with
          | none =>
            simp only [hs] at h
            exact RunResult.noConfusion h
          | some st2 =>
            simp only [hs] at h
            obtain rfl : st2 = st' := by cases h; rfl
            exact ⟨tag, si, rfl, Or.inr ⟨hS, hs⟩⟩
        · simp only [if_neg hS] at h
          exact RunResult.noConfusion h

theorem processRecord_inv {cfg : Config} {st st' : CacheState} {r : Record}
    (hInv : Inv st) (h : processRecord cfg st r = .ok st') : Inv st' := by
  rcases processRecord_ok_cases h with ⟨tag, si, _, ⟨_, hl⟩ | ⟨_, hs⟩⟩
  · exact load_cache_inv hInv hl
  · exact store_cache_inv hInv hs

theorem processTrace_inv {cfg : Config} {tr : List Record} {st st' : CacheState}
    (hInv : Inv st) (h : processTrace cfg st tr = .ok st') : Inv st' := by
  induction tr generalizing st with
  | nil =>
    simp only [processTrace] at h
    obtain rfl : st = st' := by cases h; rfl
    exact hInv
  | cons r rs ih =>
    simp only [processTrace] at h
    cases hr : processRecord cfg st r with
    | ok st2 =>
      simp only [hr] at h
      exact ih (processRecord_inv hInv hr) h
    | fatal msg =>
      simp only [hr] at h
      exact RunResult.noConfusion h
    | undefined =>
      simp only [hr] at h
      exact RunResult.noConfusion h

theorem load_cache_counters {st st' : CacheState} {tag setIndex : Nat}
    (h : load_cache st tag setIndex = some st') :
    st'.time = st.time + 1 ∧ st'.hit = st.hit + 1 ∧ st'.miss = st.miss ∨
    st'.time = st.time + 1 ∧ st'.hit = st.hit ∧ st'.miss = st.miss + 1 := by
  cases hm : find_matched_line tag (st.cache.getD setIndex []) with
  | some i =>
    rw [load_cache_hit hm] at h
    obtain rfl := Option.some.inj h
    exact Or.inl ⟨rfl, rfl, rfl⟩
  | none =>
    cases he : find_empty_line (st.cache.getD setIndex []) with
    | some n =>
      rw [load_cache_fill hm he] at h
      obtain rfl := Option.some.inj h
      exact Or.inr ⟨rfl, rfl, rfl⟩
    | none =>
      cases hl : find_LRU (st.cache.getD setIndex []) with
      | negSucc k =>
        simp only [load_cache, hm, he, hl] at h
        exact Option.noConfusion h
      | ofNat n =>
        rcases Bool.eq_false_or_eq_true
            ((st.cache.getD setIndex []).getD n default).dirty with hd | hd
        · rw [load_cache_evict_dirty hm he hl hd] at h
          obtain rfl := Option.some.inj h
          exact Or.inr ⟨rfl, rfl, rfl⟩
        · rw [load_cache_evict_clean hm he hl hd] at h
          obtain rfl := Option.some.inj h
          exact Or.inr ⟨rfl, rfl, rfl⟩

theorem store_cache_counters {st st' : CacheState} {tag setIndex : Nat}
    (h : store_cache st tag setIndex = some st') :
    st'.time = st.time + 1 ∧ st'.hit = st.hit + 1 ∧ st'.miss = st.miss ∨
    st'.time = st.time + 1 ∧ st'.hit = st.hit ∧ st'.miss = st.miss + 1 := by
  cases hm : find_matched_line tag (st.cache.getD setIndex []) with
  | some i =>
    rcases Bool.eq_false_or_eq_true
        ((st.cache.getD setIndex []).getD i default).dirty with hd | hd
    · rw [store_cache_hit_dirty hm hd] at h
      obtain rfl := Option.some.inj h
      exact Or.inl ⟨rfl, rfl, rfl⟩
    · rw [store_cache_hit_clean hm hd] at h
      obtain rfl := Option.some.inj h
      exact Or.inl ⟨rfl, rfl, rfl⟩
  | none =>
    cases he : find_empty_line (st.cache.getD setIndex []) with
    | some n =>
      rcases Bool.eq_false_or_eq_true
          ((st.cache.getD setIndex []).getD n default).dirty with hd | hd
      · rw [store_cache_fill_dirty hm he hd] at h
        obtain rfl := Option.some.inj h
        exact Or.inr ⟨rfl, rfl, rfl⟩
      · rw [store_cache_fill hm he hd] at h
        obtain rfl := Option.some.inj h
        exact Or.inr ⟨rfl, rfl, rfl⟩
    | none =>
      cases hl : find_LRU (st.cache.getD setIndex []) with
      | negSucc k =>
        simp only [store_cache, hm, he, hl] at h
        exact Option.noConfusion h
      | ofNat n =>
        rcases Bool.eq_false_or_eq_true
            ((st.cache.getD setIndex []).getD n default).dirty with hd | hd
        · rw [store_cache_evict_dirty hm he hl hd] at h
          obtain rfl := Option.some.inj h
          exact Or.inr ⟨rfl, rfl, rfl⟩
        · rw [store_cache_evict_clean hm he hl hd] at h
          obtain rfl := Option.some.inj h
          exact Or.inr ⟨rfl, rfl, rfl⟩

theorem processRecord_counters {cfg : Config} {st st' : CacheState} {r : Record}
    (h : processRecord cfg st r = .ok st') :
    st'.time = st.time + 1 ∧ st'.hit = st.hit + 1 ∧ st'.miss = st.miss ∨
    st'.time = st.time + 1 ∧ st'.hit = st.hit ∧ st'.miss = st.miss + 1 := by
  rcases processRecord_ok_cases h with ⟨tag, si, _, ⟨_, hl⟩ | ⟨_, hs⟩⟩
  · exact load_cache_counters hl
  · exact store_cache_counters hs

theorem processTrace_time {cfg : Config} {tr : List Record} {st st' : CacheState}
    (h : processTrace cfg st tr = .ok st') : st'.time = st.time + tr.length := by
  induction tr generalizing st with
  | nil =>
    simp only [processTrace] at h
    obtain rfl : st = st' := by cases h; rfl
    simp
  | cons r rs ih =>
    simp only [processTrace] at h
    cases hr : processRecord cfg st r with
    | ok st2 =>
      simp only [hr] at h
      have h1 := ih h
      rcases processRecord_counters hr with ⟨ht, _, _⟩ | ⟨ht, _, _⟩ <;>
        · rw [h1, ht]; simp; omega
    | fatal msg =>
      simp only [hr] at h
      exact RunResult.noConfusion h
    | undefined =>
      simp only [hr] at h
      exact RunResult.noConfusion h

end Csim

namespace Csim

theorem processTrace_append_ok {cfg : Config} {st st1 : CacheState}
    {tr1 : List Record} (h : processTrace cfg st tr1 = .ok st1)
    (tr2 : List Record) :
    processTrace cfg st (tr1 ++ tr2) = processTrace cfg st1 tr2 := by
  induction tr1 generalizing st with
  | nil =>
    simp only [processTrace] at h
    obtain rfl : st = st1 := by cases h; rfl
    simp
  | cons r rs ih =>
    simp only [List.cons_append, processTrace] at h ⊢
    cases hr : processRecord cfg st r with
    | ok st2 =>
      simp only [hr] at h ⊢
      exact ih h
    | fatal msg =>
      simp only [hr] at h
      exact RunResult.noConfusion h
    | undefined =>
      simp only [hr] at h
      exact RunResult.noConfusion h

theorem pairwise_distinct_of_countP_le_one {s : List Line}
    (h : ∀ t : Nat, (s.countP fun l => l.valid && l.timeStamp == t) ≤ 1) :
    List.Pairwise
      (fun a b => a.valid = true → b.valid = true → a.timeStamp ≠ b.timeStamp) s := by
  induction s with
  | nil => exact List.Pairwise.nil
  | cons a s ih =>
    refine List.Pairwise.cons ?_ (ih ?_)
    · intro b hb hav hbv hts
      have hcount := h a.timeStamp
      rw [List.countP_cons] at hcount
      have hpa : (a.valid && a.timeStamp == a.timeStamp) = true := by simp [hav]
      have hpos : 0 < s.countP (fun l => l.valid && l.timeStamp == a.timeStamp) := by
        rw [List.countP_pos_iff]
        exact ⟨b, hb, by simp [hbv, hts]⟩
      rw [hpa] at hcount
      simp only [if_true] at hcount
      omega
    · intro t
      have := h t
      rw [List.countP_cons] at this
      omega

end Csim

namespace Csim

theorem c2_step {n : Nat} (h1 : 1 ≤ n) (h2 : n < 9999999) :
    processRecord c2Config (c2State n) ⟨'L', n, 1⟩ = .ok (c2State (n + 1)) := by
  have hm : find_matched_line n ((c2State n).cache.getD 0 []) = none := by
    show find_matched_line n [⟨true, n - 1, false, n⟩] = none
    simp [find_matched_line]
    omega
  have he : find_empty_line ((c2State n).cache.getD 0 []) = none := by
    show find_empty_line [⟨true, n - 1, false, n⟩] = none
    simp [find_empty_line]
  have hl : find_LRU ((c2State n).cache.getD 0 []) = Int.ofNat 0 := by
    show find_LRU [⟨true, n - 1, false, n⟩] = Int.ofNat 0
    simp [find_LRU, find_LRU_go, h2]
  have hload := @load_cache_evict_clean (c2State n) n 0 0 hm he hl rfl
  have hstate :
      ({ c2State n with
          time := (c2State n).time + 1,
          miss := (c2State n).miss + 1,
          eviction := (c2State n).eviction + 1,
          cache := (c2State n).cache.set 0 (((c2State n).cache.getD 0 []).set 0
            ⟨true, n, false, (c2State n).time + 1⟩) } : CacheState) = c2State (n + 1) := by
    rw [show (c2State n).eviction + 1 = n from by simp only [c2State]; omega]
    rfl
  have hdec : decode 0 0 n = some (n, 0) := by
    simp [decode]
  have hassemble : processRecord c2Config (c2State n) ⟨'L', n, 1⟩ =
      match load_cache (c2State n) n 0 with
      | some st' => RunResult.ok st'
      | none => RunResult.undefined := by
    simp [processRecord, c2Config, hdec, MAX_SIZE]
  rw [hassemble, hload, hstate]

theorem c2_run : ∀ n, 1 ≤ n → n ≤ 9999999 →
    processTrace c2Config (init_cache c2Config) (c2Trace n) = .ok (c2State n) := by
  intro n
  induction n with
  | zero => omega
  | succ m ih =>
    intro _ h2
    by_cases hm : m = 0
    · subst hm
      decide
    · have hrun := ih (by omega) (by omega)
      have hstep := c2_step (n := m) (by omega) (by omega)
      have htr : c2Trace (m + 1) = c2Trace m ++ [⟨'L', m, 1⟩] := by
        simp [c2Trace, List.range_succ]
      rw [htr, processTrace_append_ok hrun]
      simp only [processTrace, hstep]

end Csim

namespace Csim

/-- C1: after each completed Load or Store operation (i.e. in any state
reached by processing a trace from the freshly initialised cache), the
incrementally maintained counter `dirtyInCache` (spec: `dirtyResident`)
equals the full-scan count of lines that are simultaneously valid and
dirty, summed over all sets. -/
theorem C1_dirty_resident_invariant (cfg : Config) (tr : List Record)
    (σ : CacheState) (h : processTrace cfg (init_cache cfg) tr = RunResult.ok σ) :
    σ.dirtyInCache = (countValidDirty σ.cache : Int) :=
  (processTrace_inv (Inv_init cfg) h).1

theorem C1_dirty_resident_invariant_witness :
    ∃ σ, processTrace ⟨0, 0, 1⟩ (init_cache ⟨0, 0, 1⟩) [⟨'S', 0, 1⟩] =
        RunResult.ok σ ∧
      σ.dirtyInCache = (countValidDirty σ.cache : Int) :=
  ⟨⟨[[⟨true, 0, true, 1⟩]], 0, 1, 0, 1, 0, 1⟩, by decide,
    C1_dirty_resident_invariant ⟨0, 0, 1⟩ [⟨'S', 0, 1⟩]
      ⟨[[⟨true, 0, true, 1⟩]], 0, 1, 0, 1, 0, 1⟩ (by decide)⟩

/-- C2 (code bug): a reachable full-set miss on which `find_LRU` does not
return the index of the valid line with minimal recency.  After the
9999999 distinct-address loads of `c2Trace 9999999` under (s=0,b=0,E=1),
the single line of set 0 is valid with recency 9999999; the next access
(address 9999999) misses in the full set, yet `find_LRU` returns `-1`
(nothing ever beats its sentinel `minTime = 9999999`) instead of 0, and
the C code then writes `cache[0][-1]`, out of bounds — so the run of
`c2Trace 10000000` ends in `RunResult.undefined` rather than evicting line 0. -/
theorem C2_find_LRU_sentinel :
    processTrace c2Config (init_cache c2Config) (c2Trace 9999999) =
      RunResult.ok (c2State 9999999) ∧
    (∀ l ∈ (c2State 9999999).cache.getD 0 [], l.valid = true) ∧
    find_matched_line 9999999 ((c2State 9999999).cache.getD 0 []) = none ∧
    find_empty_line ((c2State 9999999).cache.getD 0 []) = none ∧
    find_LRU ((c2State 9999999).cache.getD 0 []) = -1 ∧
    load_cache (c2State 9999999) 9999999 0 = none ∧
    processTrace c2Config (init_cache c2Config) (c2Trace 10000000) =
      RunResult.undefined := by
  refine ⟨c2_run 9999999 (by omega) (by omega), by decide, by decide, by decide,
    by decide, by decide, ?_⟩
  have htr : c2Trace 10000000 = c2Trace 9999999 ++ [⟨'L', 9999999, 1⟩] := by
    rw [show (10000000 : Nat) = 9999999 + 1 from rfl]
    unfold c2Trace
    rw [List.range_succ, List.map_append]
    rfl
  rw [htr, processTrace_append_ok (c2_run 9999999 (by omega) (by omega))]
  decide

/-- C3: a Store that misses in a full set and evicts a dirty victim
increments `dirtyEvicted` and `eviction` by one and leaves `dirtyInCache`
unchanged (the dirty victim leaves, the new write is immediately dirty);
concretely, under (s=0,b=0,E=1) the stream [Store 0, Store 1] (size 1)
reports evictions=1, dirty_evictions=1, dirty_bytes=1. -/
theorem C3_store_dirty_eviction :
    (∀ (st : CacheState) (tag setIndex n : Nat),
      find_matched_line tag (st.cache.getD setIndex []) = none →
      find_empty_line (st.cache.getD setIndex []) = none →
      find_LRU (st.cache.getD setIndex []) = Int.ofNat n →
      ((st.cache.getD setIndex []).getD n default).dirty = true →
      ∃ st', store_cache st tag setIndex = some st' ∧
        st'.dirtyEvicted = st.dirtyEvicted + 1 ∧
        st'.eviction = st.eviction + 1 ∧
        st'.dirtyInCache = st.dirtyInCache) ∧
    (∃ σ stats, processTrace ⟨0, 0, 1⟩ (init_cache ⟨0, 0, 1⟩)
        [⟨'S', 0, 1⟩, ⟨'S', 1, 1⟩] = RunResult.ok σ ∧
      mkStats ⟨0, 0, 1⟩ σ = some stats ∧
      stats.evictions = 1 ∧
      stats.dirty_evictions = 1 ∧
      stats.dirty_bytes = 1) := by
  constructor
  · intro st tag si n hm he hl hd
    exact ⟨_, store_cache_evict_dirty hm he hl hd, rfl, rfl, rfl⟩
  · exact ⟨⟨[[⟨true, 1, true, 2⟩]], 0, 2, 1, 1, 1, 2⟩, ⟨0, 2, 1, 1, 1⟩,
      by decide, by decide, by decide, by decide, by decide⟩

theorem C3_store_dirty_eviction_witness :
    ∃ st', store_cache ⟨[[⟨true, 0, true, 1⟩]], 0, 1, 0, 1, 0, 1⟩ 1 0 = some st' ∧
      st'.dirtyEvicted = 0 + 1 ∧ st'.eviction = 0 + 1 ∧ st'.dirtyInCache = 1 :=
  C3_store_dirty_eviction.1 ⟨[[⟨true, 0, true, 1⟩]], 0, 1, 0, 1, 0, 1⟩ 1 0 0
    (by decide) (by decide) (by decide) (by decide)

/-- C4 (code bug): whenever the 32-bit mask computation is defined
(s + b ≤ 30), the decomposition computes tag = addr >> (s+b) and
setIndex = (addr >> b) mod 2^s.  But the argument validator accepts all
s + b ≤ 64, and for s + b ≥ 31 the mask `(1 << (s+b)) - 1` shifts the
32-bit int literal 1 by at least 31 bits, which is undefined: e.g. the
accepted configuration s=16, b=16 on address 2^32. -/
theorem C4_address_decode :
    (∀ s b addr : Nat, s + b ≤ 30 →
      decode s b addr = some (addr >>> (s + b), (addr >>> b) % 2 ^ s)) ∧
    decode 16 16 4294967296 = none := by
  constructor
  · intro s b addr h
    simp only [decode, if_pos h]
    rw [Nat.and_pow_two_sub_one_eq_mod]
    simp only [Nat.shiftRight_eq_div_pow]
    rw [Nat.add_comm s b, Nat.pow_add, Nat.mod_mul_right_div_self]
  · rfl

theorem C4_address_decode_witness :
    decode 2 3 1000 = some (1000 >>> 5, (1000 >>> 3) % 2 ^ 2) :=
  C4_address_decode.1 2 3 1000 (by decide)

/-- C5: every successfully processed operation advances the global clock
by exactly one (incremented at the start of `load_cache`/`store_cache`),
so after a whole run the clock equals the number of operations and no two
operations share a clock value; consequently, in every reachable state no
two valid lines within the same set have identical recency values. -/
theorem C5_clock_and_distinct_recency :
    (∀ (cfg : Config) (st st' : CacheState) (r : Record),
      processRecord cfg st r = RunResult.ok st' → st'.time = st.time + 1) ∧
    (∀ (cfg : Config) (tr : List Record) (σ : CacheState),
      processTrace cfg (init_cache cfg) tr = RunResult.ok σ →
      σ.time = tr.length ∧
      ∀ s ∈ σ.cache, List.Pairwise
        (fun a b => a.valid = true → b.valid = true → a.timeStamp ≠ b.timeStamp) s) := by
  constructor
  · intro cfg st st' r h
    rcases processRecord_counters h with ⟨ht, _, _⟩ | ⟨ht, _, _⟩ <;> exact ht
  · intro cfg tr σ h
    constructor
    · have := processTrace_time h
      simpa [init_cache] using this
    · intro s hs
      exact pairwise_distinct_of_countP_le_one
        ((processTrace_inv (Inv_init cfg) h).2.2.2.2 s hs)

theorem C5_clock_and_distinct_recency_witness :
    ∃ σ, processTrace ⟨0, 0, 2⟩ (init_cache ⟨0, 0, 2⟩)
        [⟨'L', 0, 1⟩, ⟨'L', 1, 1⟩] = RunResult.ok σ ∧
      σ.time = 2 ∧
      ∀ s ∈ σ.cache, List.Pairwise
        (fun a b => a.valid = true → b.valid = true → a.timeStamp ≠ b.timeStamp) s := by
  refine ⟨⟨[[⟨true, 0, false, 1⟩, ⟨true, 1, false, 2⟩]], 0, 2, 0, 0, 0, 2⟩,
    by decide, ?_⟩
  exact C5_clock_and_distinct_recency.2 ⟨0, 0, 2⟩ [⟨'L', 0, 1⟩, ⟨'L', 1, 1⟩]
    ⟨[[⟨true, 0, false, 1⟩, ⟨true, 1, false, 2⟩]], 0, 2, 0, 0, 0, 2⟩ (by decide)

end Csim

namespace Csim

/-- C6: a record whose size lies outside [0, 16) makes processing fatal
at that record — the cache is never touched, no later record is
processed and the run produces the fatal result instead of statistics —
while a record with in-range size never triggers the size error. -/
theorem C6_size_range_fatal :
    (∀ (cfg : Config) (st : CacheState) (r : Record),
      (r.size < 0 ∨ MAX_SIZE ≤ r.size) →
      processRecord cfg st r = RunResult.fatal "Size is out of range") ∧
    (∀ (cfg : Config) (tr1 tr2 : List Record) (r : Record) (st1 : CacheState),
      processTrace cfg (init_cache cfg) tr1 = RunResult.ok st1 →
      (r.size < 0 ∨ MAX_SIZE ≤ r.size) →
      processTrace cfg (init_cache cfg) (tr1 ++ r :: tr2) =
        RunResult.fatal "Size is out of range") ∧
    (∀ (cfg : Config) (st : CacheState) (r : Record),
      0 ≤ r.size → r.size < MAX_SIZE →
      processRecord cfg st r ≠ RunResult.fatal "Size is out of range") := by
  have h1 : ∀ (cfg : Config) (st : CacheState) (r : Record),
      (r.size < 0 ∨ MAX_SIZE ≤ r.size) →
      processRecord cfg st r = RunResult.fatal "Size is out of range" := by
    intro cfg st r hsz
    simp only [processRecord, if_pos hsz]
  refine ⟨h1, ?_, ?_⟩
  · intro cfg tr1 tr2 r st1 h hsz
    rw [processTrace_append_ok h]
    simp only [processTrace, h1 cfg st1 r hsz]
  · intro cfg st r h0 h16 hcontra
    have hsz : ¬(r.size < 0 ∨ MAX_SIZE ≤ r.size) := by
      simp only [not_or, not_lt, not_le]
      omega
    simp only [processRecord, if_neg hsz] at hcontra
    cases hd : decode cfg.s cfg.b r.addr with
    | none =>
      simp only [hd] at hcontra
      exact RunResult.noConfusion hcontra
    | some p =>
      obtain ⟨tag, si⟩ := p
      simp only [hd] at hcontra
      by_cases hL : r.action = 'L'
      · simp only [if_pos hL] at hcontra
        cases hl : load_cache st tag si with
        | some st2 =>
          simp only [hl] at hcontra
          exact RunResult.noConfusion hcontra
        | none =>
          simp only [hl] at hcontra
          exact RunResult.noConfusion hcontra
      · simp only [if_neg hL] at hcontra
        by_cases hS : r.action = 'S'
        · simp only [if_pos hS] at hcontra
          cases hs : store_cache st tag si with
          | some st2 =>
            simp only [hs] at hcontra
            exact RunResult.noConfusion hcontra
          | none =>
            simp only [hs] at hcontra
            exact RunResult.noConfusion hcontra
        · simp only [if_neg hS] at hcontra
          have hmsg := RunResult.fatal.inj hcontra
          exact absurd hmsg (by decide)

theorem C6_size_range_fatal_witness :
    processRecord ⟨0, 0, 1⟩ (init_cache ⟨0, 0, 1⟩) ⟨'L', 0, 16⟩ =
      RunResult.fatal "Size is out of range" ∧
    processTrace ⟨0, 0, 1⟩ (init_cache ⟨0, 0, 1⟩)
        ([⟨'L', 0, 1⟩] ++ ⟨'L', 0, 16⟩ :: [⟨'L', 0, 1⟩]) =
      RunResult.fatal "Size is out of range" ∧
    processRecord ⟨0, 0, 1⟩ (init_cache ⟨0, 0, 1⟩) ⟨'L', 0, 1⟩ ≠
      RunResult.fatal "Size is out of range" :=
  ⟨C6_size_range_fatal.1 ⟨0, 0, 1⟩ (init_cache ⟨0, 0, 1⟩) ⟨'L', 0, 16⟩ (by decide),
   C6_size_range_fatal.2.1 ⟨0, 0, 1⟩ [⟨'L', 0, 1⟩] [⟨'L', 0, 1⟩] ⟨'L', 0, 16⟩
     ⟨[[⟨true, 0, false, 1⟩]], 0, 1, 0, 0, 0, 1⟩ (by decide) (by decide),
   C6_size_range_fatal.2.2 ⟨0, 0, 1⟩ (init_cache ⟨0, 0, 1⟩) ⟨'L', 0, 1⟩
     (by decide) (by decide)⟩

theorem cache_getD_set_self {c : List (List Line)} {i : Nat}
    (h : i < c.length) (v : List Line) : (c.set i v).getD i [] = v :=
  getD_set_self h v

theorem cache_getD_set_ne {c : List (List Line)} {i j : Nat}
    (h : j ≠ i) (v : List Line) : (c.set i v).getD j [] = c.getD j [] :=
  getD_set_ne h v

/-- C7: a Load that hits increments only the hit counter and updates only
the matched line's recency (to the clock value of this operation,
`time + 1`); the matched line's valid, tag and dirty bits, every other
line of every set, and the miss, eviction, dirtyInCache and dirtyEvicted
counters are unchanged. -/
theorem C7_load_hit_frame (st : CacheState) (tag setIndex i : Nat)
    (h : find_matched_line tag (st.cache.getD setIndex []) = some i) :
    ∃ st', load_cache st tag setIndex = some st' ∧
      st'.hit = st.hit + 1 ∧
      st'.miss = st.miss ∧
      st'.eviction = st.eviction ∧
      st'.dirtyInCache = st.dirtyInCache ∧
      st'.dirtyEvicted = st.dirtyEvicted ∧
      (st'.cache.getD setIndex []).getD i default =
        { (st.cache.getD setIndex []).getD i default with timeStamp := st.time + 1 } ∧
      (∀ j, j ≠ i → (st'.cache.getD setIndex []).getD j default =
        (st.cache.getD setIndex []).getD j default) ∧
      (∀ k, k ≠ setIndex → st'.cache.getD k [] = st.cache.getD k []) := by
  have hi : i < (st.cache.getD setIndex []).length := (find_matched_line_some h).1
  have hsi : setIndex < st.cache.length := lt_length_of_getD_length_pos (by omega)
  refine ⟨_, load_cache_hit h, rfl, rfl, rfl, rfl, rfl, ?_, ?_, ?_⟩
  · rw [cache_getD_set_self hsi, getD_set_self hi]
  · intro j hj
    rw [cache_getD_set_self hsi, getD_set_ne hj]
  · intro k hk
    rw [cache_getD_set_ne hk]

theorem C7_load_hit_frame_witness :
    ∃ st', load_cache ⟨[[⟨true, 7, false, 1⟩]], 0, 1, 0, 0, 0, 1⟩ 7 0 = some st' ∧
      st'.hit = 0 + 1 ∧ st'.miss = 1 ∧ st'.dirtyInCache = 0 := by
  obtain ⟨st', h1, h2, h3, -, h4, -⟩ :=
    C7_load_hit_frame ⟨[[⟨true, 7, false, 1⟩]], 0, 1, 0, 0, 0, 1⟩ 7 0 0 (by decide)
  exact ⟨st', h1, h2, h3, h4⟩

/-- C8 (code bug): whenever the report's 32-bit arithmetic is defined,
the statistics scale the resident-dirty and dirty-evicted counts by the
block size B = 2^b (`dirty_bytes = dirtyInCache * 2^b`,
`dirty_evictions = dirtyEvicted * 2^b`).  But the claim's "for every
configuration" fails: at the accepted configuration s=0, b=30, E=2
(s+b = 30, so validation, init and decoding are all fine), the
two-store trace [Store 0x0, Store 0x40000000] ends with
dirtyInCache = 2, and the `int` product `dirtyInCache * B` = 2 * 2^30
= 2^31 overflows `int` — signed overflow, undefined behaviour — so no
defined report exists there at all. -/
theorem C8_reported_dirty_bytes :
    (∀ (cfg : Config) (tr : List Record) (σ : CacheState) (stats : CsimStats),
      processTrace cfg (init_cache cfg) tr = RunResult.ok σ →
      mkStats cfg σ = some stats →
      stats.dirty_bytes = σ.dirtyInCache * (2 ^ cfg.b : Int) ∧
      stats.dirty_evictions = (σ.dirtyEvicted : Int) * (2 ^ cfg.b : Int)) ∧
    (∃ σ, processTrace ⟨0, 30, 2⟩ (init_cache ⟨0, 30, 2⟩)
        [⟨'S', 0, 1⟩, ⟨'S', 1073741824, 1⟩] = RunResult.ok σ ∧
      σ.dirtyInCache = 2 ∧
      ¬ intRepresentable (σ.dirtyInCache * (2 ^ 30 : Int)) ∧
      mkStats ⟨0, 30, 2⟩ σ = none) := by
  constructor
  · intro cfg tr σ stats _hrun hstats
    by_cases hb : cfg.b ≤ 30
    · simp only [mkStats, if_pos hb] at hstats
      by_cases hrep : intRepresentable (σ.dirtyInCache * (blockSize cfg : Int)) ∧
          intRepresentable ((σ.dirtyEvicted : Int) * (blockSize cfg : Int))
      · rw [if_pos hrep] at hstats
        obtain rfl := Option.some.inj hstats
        constructor <;> simp [blockSize, Nat.one_shiftLeft]
      · rw [if_neg hrep] at hstats
        exact Option.noConfusion hstats
    · simp only [mkStats, if_neg hb] at hstats
      exact Option.noConfusion hstats
  · exact ⟨⟨[[⟨true, 0, true, 1⟩, ⟨true, 1, true, 2⟩]], 0, 2, 0, 2, 0, 2⟩,
      by decide, by decide, by decide, by decide⟩

theorem C8_reported_dirty_bytes_witness :
    ∃ stats,
      mkStats ⟨0, 2, 1⟩ ⟨[[⟨true, 0, true, 1⟩]], 0, 1, 0, 1, 0, 1⟩ = some stats ∧
      stats.dirty_bytes = (1 : Int) * 2 ^ (2 : Nat) ∧
      stats.dirty_evictions = ((0 : Nat) : Int) * 2 ^ (2 : Nat) := by
  obtain ⟨h1, h2⟩ := C8_reported_dirty_bytes.1 ⟨0, 2, 1⟩ [⟨'S', 0, 1⟩]
    ⟨[[⟨true, 0, true, 1⟩]], 0, 1, 0, 1, 0, 1⟩ ⟨0, 1, 0, 4, 0⟩
    (by decide) (by decide)
  exact ⟨⟨0, 1, 0, 4, 0⟩, by decide, h1, h2⟩

/-- C9 (implicit): every successfully processed record advances the
clock by one and increments exactly one of the hit/miss counters, so in
every reachable state the clock equals hit + miss (the number of
operations processed). -/
theorem C9_clock_eq_hits_plus_misses :
    (∀ (cfg : Config) (st st' : CacheState) (r : Record),
      processRecord cfg st r = RunResult.ok st' →
      st'.time = st.time + 1 ∧
        (st'.hit = st.hit + 1 ∧ st'.miss = st.miss ∨
         st'.hit = st.hit ∧ st'.miss = st.miss + 1)) ∧
    (∀ (cfg : Config) (tr : List Record) (σ : CacheState),
      processTrace cfg (init_cache cfg) tr = RunResult.ok σ →
      σ.time = σ.hit + σ.miss) := by
  constructor
  · intro cfg st st' r h
    rcases processRecord_counters h with ⟨ht, hh, hm⟩ | ⟨ht, hh, hm⟩
    · exact ⟨ht, Or.inl ⟨hh, hm⟩⟩
    · exact ⟨ht, Or.inr ⟨hh, hm⟩⟩
  · intro cfg tr σ h
    exact (processTrace_inv (Inv_init cfg) h).2.2.1

theorem C9_clock_eq_hits_plus_misses_witness :
    ∃ σ, processTrace ⟨0, 0, 1⟩ (init_cache ⟨0, 0, 1⟩)
        [⟨'L', 0, 1⟩, ⟨'L', 0, 1⟩] = RunResult.ok σ ∧
      σ.time = σ.hit + σ.miss := by
  refine ⟨⟨[[⟨true, 0, false, 2⟩]], 1, 1, 0, 0, 0, 2⟩, by decide, ?_⟩
  exact C9_clock_eq_hits_plus_misses.2 ⟨0, 0, 1⟩ [⟨'L', 0, 1⟩, ⟨'L', 0, 1⟩]
    ⟨[[⟨true, 0, false, 2⟩]], 1, 1, 0, 0, 0, 2⟩ (by decide)

/-- C10 (implicit): a Load or Store that misses while the set still has
an invalid line fills the invalid line of lowest index (Load fills it
clean, Store fills it dirty), leaves every other line unchanged, and
leaves the eviction and dirtyEvicted counters unchanged. -/
theorem C10_miss_fill_lowest_free (st : CacheState) (tag setIndex n : Nat)
    (hm : find_matched_line tag (st.cache.getD setIndex []) = none)
    (he : find_empty_line (st.cache.getD setIndex []) = some n) :
    ((st.cache.getD setIndex []).getD n default).valid = false ∧
    (∀ j, j < n → ((st.cache.getD setIndex []).getD j default).valid = true) ∧
    (∃ st', load_cache st tag setIndex = some st' ∧
      st'.eviction = st.eviction ∧ st'.dirtyEvicted = st.dirtyEvicted ∧
      (st'.cache.getD setIndex []).getD n default = ⟨true, tag, false, st.time + 1⟩ ∧
      (∀ j, j ≠ n → (st'.cache.getD setIndex []).getD j default =
        (st.cache.getD setIndex []).getD j default) ∧
      (∀ k, k ≠ setIndex → st'.cache.getD k [] = st.cache.getD k [])) ∧
    (∃ st', store_cache st tag setIndex = some st' ∧
      st'.eviction = st.eviction ∧ st'.dirtyEvicted = st.dirtyEvicted ∧
      (st'.cache.getD setIndex []).getD n default = ⟨true, tag, true, st.time + 1⟩ ∧
      (∀ j, j ≠ n → (st'.cache.getD setIndex []).getD j default =
        (st.cache.getD setIndex []).getD j default) ∧
      (∀ k, k ≠ setIndex → st'.cache.getD k [] = st.cache.getD k [])) := by
  obtain ⟨hn, hv, hlow⟩ := find_empty_line_some he
  have hsi : setIndex < st.cache.length := lt_length_of_getD_length_pos (by omega)
  refine ⟨hv, hlow, ?_, ?_⟩
  · refine ⟨_, load_cache_fill hm he, rfl, rfl, ?_, ?_, ?_⟩
    · rw [cache_getD_set_self hsi, getD_set_self hn]
    · intro j hj
      rw [cache_getD_set_self hsi, getD_set_ne hj]
    · intro k hk
      rw [cache_getD_set_ne hk]
  · rcases Bool.eq_false_or_eq_true
        ((st.cache.getD setIndex []).getD n default).dirty with hd | hd
    · refine ⟨_, store_cache_fill_dirty hm he hd, rfl, rfl, ?_, ?_, ?_⟩
      · rw [cache_getD_set_self hsi, getD_set_self hn]
      · intro j hj
        rw [cache_getD_set_self hsi, getD_set_ne hj]
      · intro k hk
        rw [cache_getD_set_ne hk]
    · refine ⟨_, store_cache_fill hm he hd, rfl, rfl, ?_, ?_, ?_⟩
      · rw [cache_getD_set_self hsi, getD_set_self hn]
      · intro j hj
        rw [cache_getD_set_self hsi, getD_set_ne hj]
      · intro k hk
        rw [cache_getD_set_ne hk]

theorem C10_miss_fill_lowest_free_witness :
    (∀ j, j < 1 →
      (((⟨[[⟨true, 3, false, 1⟩, ⟨false, 0, false, 0⟩]], 0, 1, 0, 0, 0, 1⟩ :
          CacheState).cache.getD 0 []).getD j default).valid = true) ∧
    ∃ st', load_cache ⟨[[⟨true, 3, false, 1⟩, ⟨false, 0, false, 0⟩]],
        0, 1, 0, 0, 0, 1⟩ 5 0 = some st' ∧ st'.eviction = 0 := by
  obtain ⟨-, h2, ⟨st', hl, hev, -⟩, -⟩ :=
    C10_miss_fill_lowest_free
      ⟨[[⟨true, 3, false, 1⟩, ⟨false, 0, false, 0⟩]], 0, 1, 0, 0, 0, 1⟩ 5 0 1
      (by decide) (by decide)
  exact ⟨h2, st', hl, hev⟩

end Csim
